import Mathlib

/-!
Verification of `src/detect_insertion_events.py` (function `detect_insertions_slow`).

Shallow embedding conventions:
* A `Stack` mirrors the numpy `ndarray (T, Y, X)` input: a shape triple plus a
  total indexing function.  Pixel values are modelled as exact rationals
  (the claims under study are independent of floating-point rounding).
* `np.mean(stack[0])` / `np.std(stack[0])` over the H×W samples of frame 0 are
  `bgMean` / `sqrt bgVar` (population statistics, numpy's default `ddof=0`).
  The source compares `diff > threshold * bg_std`; since `bg_std` is the real
  square root of the rational variance, the comparison is encoded by the
  square-root-free decidable test `maskCond`, proved equivalent to
  `threshold * Real.sqrt bgVar < diff` in `maskCond_iff`.
  (For zero-pixel frames numpy yields `nan` statistics and every `>` test is
  false; the model gives the same empty mask because there are no cells.)
* `scipy.ndimage.label(candidates)` with its default structuring element
  (`generate_binary_structure(2, 1)`, i.e. 4-connectivity) is modelled by
  `labelComponents`, a flood fill over the raster-ordered candidate cells that
  yields components in row-major first-occurrence order — the label order of
  `ndimage.label` — with membership proved equal to 4-connected reachability.
* The only failure mode of the source is the `IndexError` raised by
  `stack[0]` when `T = 0`; it is surfaced as `Err.invalidInput`.  The error
  type also carries `Err.shapeMismatch` for the broadcast failure of numpy
  array subtraction, used when modelling the change-detection stage applied
  to two raw 2-D arrays (`change_detector`).
-/

/-- A detected event record, mirroring the dict
`{'frame': t, 'y': cy, 'x': cx, 'intensity': diff[cy, cx]}`. -/
structure Event where
  frame : ℕ
  y : ℕ
  x : ℕ
  intensity : ℚ
deriving DecidableEq, Repr

/-- Failure modes. `invalidInput` models the `IndexError` raised by `stack[0]`
on an empty stack; `shapeMismatch` models numpy's broadcasting `ValueError`
for an elementwise operation on incompatible shapes. -/
inductive Err where
  | invalidInput
  | shapeMismatch
deriving DecidableEq, Repr

/-- The numpy input `stack : ndarray (T, Y, X)`: a shape triple and a total
indexing function (`data t y x` is pixel `(y, x)` of frame `t`). -/
structure Stack where
  T : ℕ
  Y : ℕ
  X : ℕ
  data : ℕ → ℕ → ℕ → ℚ

/-- The H×W samples of frame 0, in raster (row-major) order. -/
def frame0Vals (s : Stack) : List ℚ :=
  (List.range s.Y).flatMap fun y => (List.range s.X).map fun x => s.data 0 y x

/-- `bg_mean = np.mean(stack[0])` (computed by the source but never used by
the detection logic). -/
def bgMean (s : Stack) : ℚ :=
  (frame0Vals s).sum / ((s.Y : ℚ) * (s.X : ℚ))

/-- The population variance of frame 0; `bg_std = np.std(stack[0])` is its
real square root. -/
def bgVar (s : Stack) : ℚ :=
  ((frame0Vals s).map fun v => (v - bgMean s) ^ 2).sum / ((s.Y : ℚ) * (s.X : ℚ))

/-- `diff = stack[t] - stack[t-1]`, sampled at pixel `(y, x)`. -/
def diffAt (s : Stack) (t y x : ℕ) : ℚ :=
  s.data t y x - s.data (t - 1) y x

/-- Decidable form of the mask test `d > thr * sqrt v` (for `0 ≤ v`), i.e. of
`diff > threshold * bg_std` in the source; see `maskCond_iff`. -/
def maskCond (thr v d : ℚ) : Bool :=
  if 0 ≤ thr then decide (0 < d) && decide (thr ^ 2 * v < d ^ 2)
  else if v = 0 then decide (0 < d)
  else decide (0 ≤ d) || decide (d ^ 2 < thr ^ 2 * v)

/-- The true cells of `candidates = diff > threshold * bg_std` at frame pair
`(t-1, t)`, in raster order (the order `np.where` reports them). -/
def cellsAt (s : Stack) (thr : ℚ) (t : ℕ) : List (ℕ × ℕ) :=
  ((List.range s.Y).product (List.range s.X)).filter fun c =>
    maskCond thr (bgVar s) (diffAt s t c.1 c.2)

/-- 4-adjacency of grid cells: the default structuring element of
`scipy.ndimage.label` (`generate_binary_structure(2, 1)`) connects only
horizontal and vertical neighbours, not diagonal ones. -/
def adj4 (a b : ℕ × ℕ) : Bool :=
  decide ((a.1 = b.1 ∧ (a.2 + 1 = b.2 ∨ b.2 + 1 = a.2)) ∨
          (a.2 = b.2 ∧ (a.1 + 1 = b.1 ∨ b.1 + 1 = a.1)))

/-- One step of the adjacency relation restricted to the candidate cells. -/
def Adj (cells : List (ℕ × ℕ)) (a b : ℕ × ℕ) : Prop :=
  a ∈ cells ∧ b ∈ cells ∧ adj4 a b = true

/-- 4-connected reachability inside the candidate-cell set. -/
def Conn (cells : List (ℕ × ℕ)) (a b : ℕ × ℕ) : Prop :=
  Relation.ReflTransGen (Adj cells) a b

/-- One round of flood fill: add every candidate cell 4-adjacent to the
current region. -/
def grow (cells comp : List (ℕ × ℕ)) : List (ℕ × ℕ) :=
  comp ++ cells.filter fun c => decide (c ∉ comp) && comp.any fun m => adj4 m c

/-- Iterated flood fill. -/
def growN (cells : List (ℕ × ℕ)) : ℕ → List (ℕ × ℕ) → List (ℕ × ℕ)
  | 0, comp => comp
  | n + 1, comp => grow cells (growN cells n comp)

/-- The connected component of seed `a`: `cells.length` flood-fill rounds
saturate (see `grow_component`). -/
def component (cells : List (ℕ × ℕ)) (a : ℕ × ℕ) : List (ℕ × ℕ) :=
  growN cells cells.length [a]

/-- One labeling step: a cell already absorbed by an earlier component is
skipped, otherwise it seeds a new component. -/
def lcStep (cells : List (ℕ × ℕ)) (comps : List (List (ℕ × ℕ))) (c : ℕ × ℕ) :
    List (List (ℕ × ℕ)) :=
  if comps.any (fun comp => decide (c ∈ comp)) then comps
  else comps ++ [component cells c]

/-- `ndimage.label`: scan cells in raster order and open a new component for
each cell not already absorbed by an earlier one, so components appear in
row-major first-occurrence order, the label order of `ndimage.label`. -/
def labelComponents (cells : List (ℕ × ℕ)) : List (List (ℕ × ℕ)) :=
  cells.foldl (lcStep cells) []

/-- The body of the per-label loop: skip empty components (`if len(y) == 0`),
otherwise truncate the centroid (`int(np.mean(y))`, `int(np.mean(x))`;
natural-number division is truncation toward zero of the non-negative exact
mean) and sample the difference image there. -/
def eventsAt (s : Stack) (thr : ℚ) (t : ℕ) : List Event :=
  (labelComponents (cellsAt s thr t)).filterMap fun comp =>
    if comp.isEmpty then none
    else
      some { frame := t
             y := (comp.map Prod.fst).sum / comp.length
             x := (comp.map Prod.snd).sum / comp.length
             intensity := diffAt s t ((comp.map Prod.fst).sum / comp.length)
                            ((comp.map Prod.snd).sum / comp.length) }

/-- `detect_insertions_slow(stack, threshold, min_distance)`.  On `T = 0` the
source crashes at `np.mean(stack[0])` (`IndexError`), surfaced here as
`Err.invalidInput`; otherwise it loops `for t in range(1, T)` accumulating
events.  `min_distance` is accepted and never read, as in the source. -/
def detect_insertions_slow (s : Stack) (threshold : ℚ) (min_distance : ℤ) :
    Except Err (List Event) :=
  if s.T = 0 then .error .invalidInput
  else .ok ((List.range' 1 (s.T - 1)).flatMap fun t => eventsAt s threshold t)

/-- A raw 2-D numpy array, for modelling the change-detection stage applied
to two stand-alone frames. -/
structure Arr2 where
  Y : ℕ
  X : ℕ
  data : ℕ → ℕ → ℚ

/-- numpy broadcast compatibility of one axis pair. -/
def bcastOK (a b : ℕ) : Bool :=
  decide (a = b) || decide (a = 1) || decide (b = 1)

/-- Broadcast indexing: an axis of extent 1 is always read at 0. -/
def bindex (dim i : ℕ) : ℕ :=
  if dim = 1 then 0 else i

/-- `curr - prev` with numpy broadcasting semantics; incompatible shapes
raise numpy's shape error (`Err.shapeMismatch`). -/
def sub_bcast (curr prev : Arr2) : Except Err Arr2 :=
  if bcastOK curr.Y prev.Y && bcastOK curr.X prev.X then
    .ok { Y := max curr.Y prev.Y
          X := max curr.X prev.X
          data := fun y x =>
            curr.data (bindex curr.Y y) (bindex curr.X x) -
              prev.data (bindex prev.Y y) (bindex prev.X x) }
  else .error .shapeMismatch

/-- The change-detection stage (source lines 51-53) applied to two raw 2-D
frames and a given reference std: the difference image `curr - prev` and the
raster-ordered true cells of `diff > threshold * bg_std`. -/
def change_detector (threshold bg_std : ℚ) (prev curr : Arr2) :
    Except Err (Arr2 × List (ℕ × ℕ)) :=
  match sub_bcast curr prev with
  | .error e => .error e
  | .ok diffA =>
      .ok (diffA,
        ((List.range diffA.Y).product (List.range diffA.X)).filter fun c =>
          decide (threshold * bg_std < diffA.data c.1 c.2))

/-- `Except.ok`-ness as a boolean (used to state that a call did not fail). -/
def isOkE {α : Type} (e : Except Err α) : Bool :=
  match e with
  | .ok _ => true
  | .error _ => false

instance {α : Type} [DecidableEq α] : DecidableEq (Except Err α) := fun a b =>
  match a, b with
  | .ok x, .ok y =>
      if h : x = y then .isTrue (by rw [h]) else .isFalse (by intro hc; cases hc; exact h rfl)
  | .error x, .error y =>
      if h : x = y then .isTrue (by rw [h]) else .isFalse (by intro hc; cases hc; exact h rfl)
  | .ok _, .error _ => .isFalse (by intro hc; cases hc)
  | .error _, .ok _ => .isFalse (by intro hc; cases hc)

/-- `maskCond` is faithful to the source's comparison
`diff > threshold * bg_std` where `bg_std` is the (real) square root of the
variance `v`. -/
theorem maskCond_iff (thr v d : ℚ) (hv : 0 ≤ v) :
    maskCond thr v d = true ↔ (thr : ℝ) * Real.sqrt (v : ℝ) < (d : ℝ) := by
  have hs0 : (0 : ℝ) ≤ Real.sqrt (v : ℝ) := Real.sqrt_nonneg _
  have hs2 : Real.sqrt (v : ℝ) ^ 2 = (v : ℝ) := Real.sq_sqrt (by exact_mod_cast hv)
  unfold maskCond
  split_ifs with h1 h2
  · simp only [Bool.and_eq_true, decide_eq_true_eq]
    have h1R : (0 : ℝ) ≤ (thr : ℝ) := by exact_mod_cast h1
    constructor
    · rintro ⟨hd, hlt⟩
      have hdR : (0 : ℝ) < (d : ℝ) := by exact_mod_cast hd
      have hltR : (thr : ℝ) ^ 2 * (v : ℝ) < (d : ℝ) ^ 2 := by exact_mod_cast hlt
      nlinarith [mul_nonneg h1R hs0]
    · intro h
      have hd : (0 : ℝ) < (d : ℝ) := lt_of_le_of_lt (mul_nonneg h1R hs0) h
      refine ⟨by exact_mod_cast hd, ?_⟩
      have : (thr : ℝ) ^ 2 * (v : ℝ) < (d : ℝ) ^ 2 := by nlinarith [mul_nonneg h1R hs0]
      exact_mod_cast this
  · subst h2
    simp only [decide_eq_true_eq, Rat.cast_zero, Real.sqrt_zero, mul_zero]
    exact ⟨fun h => by exact_mod_cast h, fun h => by exact_mod_cast h⟩
  · simp only [Bool.or_eq_true, decide_eq_true_eq]
    have hvpos : (0 : ℝ) < (v : ℝ) := by
      have : v ≠ 0 := h2
      have : 0 < v := lt_of_le_of_ne hv (Ne.symm this)
      exact_mod_cast this
    have hspos : (0 : ℝ) < Real.sqrt (v : ℝ) := Real.sqrt_pos.2 hvpos
    have h1R : (thr : ℝ) < 0 := by
      have : ¬(0 : ℚ) ≤ thr := h1
      have : thr < 0 := lt_of_not_le this
      exact_mod_cast this
    have hts : (thr : ℝ) * Real.sqrt (v : ℝ) < 0 := mul_neg_of_neg_of_pos h1R hspos
    constructor
    · rintro (hd | hd)
      · exact lt_of_lt_of_le hts (by exact_mod_cast hd)
      · have hdR : (d : ℝ) ^ 2 < (thr : ℝ) ^ 2 * (v : ℝ) := by exact_mod_cast hd
        nlinarith
    · intro h
      by_cases hd : (0 : ℚ) ≤ d
      · exact Or.inl hd
      · right
        have hdR : (d : ℝ) < 0 := by exact_mod_cast lt_of_not_le hd
        have : (d : ℝ) ^ 2 < (thr : ℝ) ^ 2 * (v : ℝ) := by nlinarith
        exact_mod_cast this

/-- The population variance of the reference frame is non-negative. -/
theorem bgVar_nonneg (s : Stack) : 0 ≤ bgVar s := by
  unfold bgVar
  apply div_nonneg
  · apply List.sum_nonneg
    intro e he
    obtain ⟨v, _, rfl⟩ := List.mem_map.1 he
    positivity
  · positivity

/-- Membership in the candidate-cell list. -/
theorem mem_cellsAt (s : Stack) (thr : ℚ) (t : ℕ) (c : ℕ × ℕ) :
    c ∈ cellsAt s thr t ↔
      c.1 < s.Y ∧ c.2 < s.X ∧ maskCond thr (bgVar s) (diffAt s t c.1 c.2) = true := by
  obtain ⟨y, x⟩ := c
  simp [cellsAt, List.mem_filter, List.mem_product, List.mem_range, and_assoc]

/-- The raster-ordered candidate list has no duplicate cells. -/
theorem cellsAt_nodup (s : Stack) (thr : ℚ) (t : ℕ) : (cellsAt s thr t).Nodup :=
  ((List.nodup_range s.Y).product (List.nodup_range s.X)).filter _

/-- 4-adjacency is symmetric. -/
theorem adj4_symm (a b : ℕ × ℕ) : adj4 a b = adj4 b a := by
  unfold adj4
  simp only [decide_eq_decide]
  constructor
  · rintro (⟨h, h2⟩ | ⟨h, h2⟩)
    · exact Or.inl ⟨h.symm, h2.symm⟩
    · exact Or.inr ⟨h.symm, h2.symm⟩
  · rintro (⟨h, h2⟩ | ⟨h, h2⟩)
    · exact Or.inl ⟨h.symm, h2.symm⟩
    · exact Or.inr ⟨h.symm, h2.symm⟩

/-- Restricted adjacency is symmetric. -/
theorem Adj_symm (cells : List (ℕ × ℕ)) : Symmetric (Adj cells) := by
  rintro a b ⟨ha, hb, hadj⟩
  refine ⟨hb, ha, ?_⟩
  rw [adj4_symm b a]
  exact hadj

/-- Connectivity is symmetric. -/
theorem Conn_symm (cells : List (ℕ × ℕ)) {a b : ℕ × ℕ} (h : Conn cells a b) :
    Conn cells b a :=
  Relation.ReflTransGen.symmetric (Adj_symm cells) h

/-- The endpoint of a connectivity path starting in the cell set lies in the
cell set. -/
theorem Conn_mem_right (cells : List (ℕ × ℕ)) {a b : ℕ × ℕ} (ha : a ∈ cells)
    (h : Conn cells a b) : b ∈ cells := by
  induction h with
  | refl => exact ha
  | tail _ hstep _ => exact hstep.2.1

/-- A flood-fill round only adds cells. -/
theorem subset_grow (cells comp : List (ℕ × ℕ)) : comp ⊆ grow cells comp :=
  fun _ hx => List.mem_append_left _ hx

/-- A flood-fill round stays inside the cell set. -/
theorem grow_subset (cells comp : List (ℕ × ℕ)) (h : comp ⊆ cells) :
    grow cells comp ⊆ cells := by
  intro x hx
  rcases List.mem_append.1 hx with hx | hx
  · exact h hx
  · exact List.mem_of_mem_filter hx

/-- A flood-fill round preserves distinctness. -/
theorem nodup_grow (cells comp : List (ℕ × ℕ)) (hc : cells.Nodup) (h : comp.Nodup) :
    (grow cells comp).Nodup := by
  rw [grow, List.nodup_append]
  refine ⟨h, hc.filter _, ?_⟩
  intro x hx hx2
  have hm := (List.mem_filter.1 hx2).2
  simp only [Bool.and_eq_true, decide_eq_true_eq] at hm
  exact hm.1 hx

/-- Iterated flood fill only adds cells. -/
theorem subset_growN (cells comp : List (ℕ × ℕ)) (n : ℕ) :
    comp ⊆ growN cells n comp := by
  induction n with
  | zero => exact fun x hx => hx
  | succ n ih => exact fun x hx => subset_grow cells _ (ih hx)

/-- Iterated flood fill stays inside the cell set. -/
theorem growN_subset (cells comp : List (ℕ × ℕ)) (n : ℕ) (h : comp ⊆ cells) :
    growN cells n comp ⊆ cells := by
  induction n with
  | zero => exact h
  | succ n ih => exact grow_subset cells _ ih

/-- Iterated flood fill preserves distinctness. -/
theorem nodup_growN (cells comp : List (ℕ × ℕ)) (n : ℕ) (hc : cells.Nodup)
    (h : comp.Nodup) : (growN cells n comp).Nodup := by
  induction n with
  | zero => exact h
  | succ n ih => exact nodup_grow cells _ hc ih

/-- Flood-fill rounds compose additively. -/
theorem growN_add (cells comp : List (ℕ × ℕ)) (m n : ℕ) :
    growN cells (m + n) comp = growN cells m (growN cells n comp) := by
  induction m with
  | zero => rw [Nat.zero_add]; rfl
  | succ m ih =>
      rw [Nat.succ_add]
      show grow cells (growN cells (m + n) comp) = grow cells (growN cells m _)
      rw [ih]

/-- A flood-fill fixpoint stays fixed. -/
theorem growN_fix (cells comp : List (ℕ × ℕ)) (h : grow cells comp = comp) (n : ℕ) :
    growN cells n comp = comp := by
  induction n with
  | zero => rfl
  | succ n ih =>
      show grow cells (growN cells n comp) = comp
      rw [ih, h]

/-- A non-fixed flood-fill round strictly grows the region. -/
theorem length_lt_grow (cells comp : List (ℕ × ℕ)) (h : grow cells comp ≠ comp) :
    comp.length < (grow cells comp).length := by
  rw [grow] at h ⊢
  rcases hf : cells.filter (fun c => decide (c ∉ comp) && comp.any fun m => adj4 m c)
    with _ | ⟨c, l⟩
  · rw [hf, List.append_nil] at h
    exact absurd rfl h
  · rw [List.length_append, List.length_cons]
    omega

/-- While no fixpoint is reached, the region length grows by at least one per
round. -/
theorem length_growN_ge (cells comp : List (ℕ × ℕ)) :
    ∀ n, (∀ k < n, grow cells (growN cells k comp) ≠ growN cells k comp) →
      comp.length + n ≤ (growN cells n comp).length := by
  intro n
  induction n with
  | zero => intro _; exact Nat.le_refl _
  | succ n ih =>
      intro h
      have h1 := ih fun k hk => h k (Nat.lt_succ_of_lt hk)
      have h2 := length_lt_grow cells (growN cells n comp) (h n (Nat.lt_succ_self n))
      show comp.length + (n + 1) ≤ (grow cells (growN cells n comp)).length
      omega

/-- After `cells.length` rounds the flood fill has saturated. -/
theorem grow_growN_fix (cells comp : List (ℕ × ℕ)) (hc : cells.Nodup)
    (hn : comp.Nodup) (hs : comp ⊆ cells) :
    grow cells (growN cells cells.length comp) = growN cells cells.length comp := by
  by_contra h
  have hne : ∀ k < cells.length + 1,
      grow cells (growN cells k comp) ≠ growN cells k comp := by
    intro k hk hfix
    have heq : growN cells cells.length comp = growN cells k comp := by
      have hdecomp : cells.length = (cells.length - k) + k := by omega
      rw [hdecomp, growN_add, growN_fix cells _ hfix]
    rw [heq] at h
    exact h hfix
  have h1 := length_growN_ge cells comp (cells.length + 1) hne
  have h2 : (growN cells (cells.length + 1) comp).length ≤ cells.length :=
    ((nodup_growN cells comp (cells.length + 1) hc hn).subperm
      (growN_subset cells comp (cells.length + 1) hs)).length_le
  omega

/-- The seed belongs to its component. -/
theorem mem_component_self (cells : List (ℕ × ℕ)) (a : ℕ × ℕ) :
    a ∈ component cells a :=
  subset_growN cells [a] cells.length (List.mem_singleton_self a)

/-- Components of seeds from the cell set stay inside the cell set. -/
theorem component_subset (cells : List (ℕ × ℕ)) (a : ℕ × ℕ) (ha : a ∈ cells) :
    component cells a ⊆ cells :=
  growN_subset cells [a] cells.length fun x hx => by
    rwa [List.mem_singleton.1 hx]

/-- Components have no duplicates. -/
theorem component_nodup (cells : List (ℕ × ℕ)) (a : ℕ × ℕ) (hc : cells.Nodup) :
    (component cells a).Nodup :=
  nodup_growN cells [a] cells.length hc (List.nodup_singleton a)

/-- A computed component is a flood-fill fixpoint. -/
theorem grow_component (cells : List (ℕ × ℕ)) (a : ℕ × ℕ) (hc : cells.Nodup)
    (ha : a ∈ cells) : grow cells (component cells a) = component cells a :=
  grow_growN_fix cells [a] hc (List.nodup_singleton a) fun x hx => by
    rwa [List.mem_singleton.1 hx]

/-- Soundness of one flood-fill round: everything added is connected to the
seed. -/
theorem conn_of_mem_grow (cells comp : List (ℕ × ℕ)) (a : ℕ × ℕ)
    (hsub : comp ⊆ cells)
    (hconn : ∀ x ∈ comp, Conn cells a x) :
    ∀ x ∈ grow cells comp, Conn cells a x := by
  intro x hx
  rcases List.mem_append.1 hx with hx | hx
  · exact hconn x hx
  · obtain ⟨hxc, hcond⟩ := List.mem_filter.1 hx
    simp only [Bool.and_eq_true, decide_eq_true_eq, List.any_eq_true] at hcond
    obtain ⟨m, hm, hadj⟩ := hcond.2
    exact Relation.ReflTransGen.tail (hconn m hm) ⟨hsub hm, hxc, hadj⟩

/-- Soundness of components: every member is connected to the seed. -/
theorem conn_of_mem_component (cells : List (ℕ × ℕ)) (a : ℕ × ℕ) (ha : a ∈ cells) :
    ∀ x ∈ component cells a, Conn cells a x := by
  suffices h : ∀ n, growN cells n [a] ⊆ cells ∧
      ∀ x ∈ growN cells n [a], Conn cells a x from (h cells.length).2
  intro n
  induction n with
  | zero =>
      constructor
      · intro x hx
        rwa [List.mem_singleton.1 hx]
      · intro x hx
        rw [List.mem_singleton.1 hx]
        exact Relation.ReflTransGen.refl
  | succ n ih =>
      exact ⟨grow_subset cells _ ih.1, conn_of_mem_grow cells _ a ih.1 ih.2⟩

/-- Completeness of components: every cell connected to the seed is a member. -/
theorem mem_component_of_conn (cells : List (ℕ × ℕ)) (a b : ℕ × ℕ)
    (hc : cells.Nodup) (ha : a ∈ cells) (h : Conn cells a b) :
    b ∈ component cells a := by
  induction h with
  | refl => exact mem_component_self cells a
  | @tail x y h1 h2 ih =>
      by_cases hy : y ∈ component cells a
      · exact hy
      · have hmem : y ∈ grow cells (component cells a) := by
          apply List.mem_append_right
          rw [List.mem_filter]
          refine ⟨h2.2.1, ?_⟩
          simp only [Bool.and_eq_true, decide_eq_true_eq, List.any_eq_true]
          exact ⟨hy, ⟨x, ih, h2.2.2⟩⟩
        rwa [grow_component cells a hc ha] at hmem

/-- A component is exactly the 4-connectivity class of its seed. -/
theorem mem_component_iff (cells : List (ℕ × ℕ)) (a b : ℕ × ℕ)
    (hc : cells.Nodup) (ha : a ∈ cells) :
    b ∈ component cells a ↔ Conn cells a b :=
  ⟨fun h => conn_of_mem_component cells a ha b h,
   fun h => mem_component_of_conn cells a b hc ha h⟩

/-- Components already collected survive the rest of the labeling scan. -/
theorem mem_foldl_lcStep (cells : List (ℕ × ℕ)) (l : List (ℕ × ℕ))
    (acc : List (List (ℕ × ℕ))) (comp : List (ℕ × ℕ)) (h : comp ∈ acc) :
    comp ∈ List.foldl (lcStep cells) acc l := by
  induction l generalizing acc with
  | nil => exact h
  | cons c l ih =>
      apply ih
      unfold lcStep
      split
      · exact h
      · exact List.mem_append_left _ h

/-- Every collected component is the component of some seed cell. -/
theorem foldl_lcStep_shape (cells : List (ℕ × ℕ)) :
    ∀ l : List (ℕ × ℕ), ∀ acc : List (List (ℕ × ℕ)), l ⊆ cells →
      (∀ comp ∈ acc, ∃ a, a ∈ cells ∧ comp = component cells a) →
      ∀ comp ∈ List.foldl (lcStep cells) acc l,
        ∃ a, a ∈ cells ∧ comp = component cells a := by
  intro l
  induction l with
  | nil => exact fun acc _ hacc comp hcomp => hacc comp hcomp
  | cons c l ih =>
      intro acc hsub hacc comp hcomp
      refine ih _ (fun x hx => hsub (List.mem_cons_of_mem _ hx)) ?_ comp hcomp
      intro comp2 hcomp2
      unfold lcStep at hcomp2
      split at hcomp2
      · exact hacc comp2 hcomp2
      · rcases List.mem_append.1 hcomp2 with h | h
        · exact hacc comp2 h
        · exact ⟨c, hsub (List.mem_cons_self c l), List.mem_singleton.1 h⟩

/-- Every scanned cell ends up in some collected component. -/
theorem foldl_lcStep_cover (cells : List (ℕ × ℕ)) :
    ∀ l : List (ℕ × ℕ), ∀ acc : List (List (ℕ × ℕ)),
      ∀ x ∈ l, ∃ comp, comp ∈ List.foldl (lcStep cells) acc l ∧ x ∈ comp := by
  intro l
  induction l with
  | nil => exact fun acc x hx => absurd hx (List.not_mem_nil x)
  | cons c l ih =>
      intro acc x hx
      rcases List.mem_cons.1 hx with rfl | hx
      · show ∃ comp, comp ∈ List.foldl (lcStep cells) (lcStep cells acc x) l ∧ x ∈ comp
        unfold lcStep
        split
        · next hany =>
            simp only [List.any_eq_true, decide_eq_true_eq] at hany
            obtain ⟨comp, haccm, hxc⟩ := hany
            exact ⟨comp, mem_foldl_lcStep cells l acc comp haccm, hxc⟩
        · exact ⟨component cells x,
            mem_foldl_lcStep cells l _ _
              (List.mem_append_right _ (List.mem_singleton_self _)),
            mem_component_self cells x⟩
      · exact ih (lcStep cells acc c) x hx

/-- Distinct collected components stay pairwise disjoint during the scan. -/
theorem foldl_lcStep_disjoint (cells : List (ℕ × ℕ)) (hc : cells.Nodup) :
    ∀ l : List (ℕ × ℕ), ∀ acc : List (List (ℕ × ℕ)), l ⊆ cells →
      (∀ comp ∈ acc, ∃ a, a ∈ cells ∧ comp = component cells a) →
      List.Pairwise List.Disjoint acc →
      List.Pairwise List.Disjoint (List.foldl (lcStep cells) acc l) := by
  intro l
  induction l with
  | nil => exact fun acc _ _ hp => hp
  | cons c l ih =>
      intro acc hsub hshape hp
      have hcell : c ∈ cells := hsub (List.mem_cons_self c l)
      have hshape2 : ∀ comp ∈ lcStep cells acc c,
          ∃ a, a ∈ cells ∧ comp = component cells a := by
        intro comp hcomp
        unfold lcStep at hcomp
        split at hcomp
        · exact hshape comp hcomp
        · rcases List.mem_append.1 hcomp with h | h
          · exact hshape comp h
          · exact ⟨c, hcell, List.mem_singleton.1 h⟩
      refine ih _ (fun x hx => hsub (List.mem_cons_of_mem _ hx)) hshape2 ?_
      unfold lcStep
      split
      · exact hp
      · next hany =>
          rw [List.pairwise_append]
          refine ⟨hp, List.pairwise_singleton _ _, ?_⟩
          intro comp hcomp comp2 hcomp2
          rw [List.mem_singleton] at hcomp2
          subst hcomp2
          intro x hx hx2
          obtain ⟨a, hac, rfl⟩ := hshape comp hcomp
          have hcnot : c ∉ component cells a := fun hcc =>
            hany (List.any_eq_true.2 ⟨component cells a, hcomp, decide_eq_true hcc⟩)
          have h1 : Conn cells a x := conn_of_mem_component cells a hac x hx
          have h2 : Conn cells c x := conn_of_mem_component cells c hcell x hx2
          have hac2 : Conn cells a c := h1.trans (Conn_symm cells h2)
          exact hcnot (mem_component_of_conn cells a c hc hac hac2)

/-- Each labeled component is the component of some candidate cell. -/
theorem labelComponents_shape (cells : List (ℕ × ℕ)) :
    ∀ comp ∈ labelComponents cells, ∃ a, a ∈ cells ∧ comp = component cells a :=
  foldl_lcStep_shape cells cells [] (fun _ hx => hx)
    (fun _ hcomp => absurd hcomp (List.not_mem_nil _))

/-- Every candidate cell is covered by some labeled component. -/
theorem labelComponents_cover (cells : List (ℕ × ℕ)) :
    ∀ c ∈ cells, ∃ comp, comp ∈ labelComponents cells ∧ c ∈ comp :=
  foldl_lcStep_cover cells cells []

/-- Labeled components are pairwise disjoint. -/
theorem labelComponents_disjoint (cells : List (ℕ × ℕ)) (hc : cells.Nodup) :
    List.Pairwise List.Disjoint (labelComponents cells) :=
  foldl_lcStep_disjoint cells hc cells [] (fun _ hx => hx)
    (fun _ hcomp => absurd hcomp (List.not_mem_nil _)) List.Pairwise.nil

/-- Labeled components are nonempty and contained in the candidate set. -/
theorem labelComponents_nonempty_subset (cells : List (ℕ × ℕ)) :
    ∀ comp ∈ labelComponents cells, comp ≠ [] ∧ comp ⊆ cells := by
  intro comp hcomp
  obtain ⟨a, ha, rfl⟩ := labelComponents_shape cells comp hcomp
  refine ⟨fun h => ?_, component_subset cells a ha⟩
  exact List.not_mem_nil a (h ▸ mem_component_self cells a)

/-- Two cells lie in the same labeled component exactly when they are
4-connected inside the candidate set. -/
theorem labelComponents_conn (cells : List (ℕ × ℕ)) (hc : cells.Nodup) :
    ∀ comp ∈ labelComponents cells, ∀ b ∈ comp, ∀ c : ℕ × ℕ,
      c ∈ comp ↔ Conn cells b c := by
  intro comp hcomp b hb c
  obtain ⟨a, ha, rfl⟩ := labelComponents_shape cells comp hcomp
  have hab : Conn cells a b := conn_of_mem_component cells a ha b hb
  rw [mem_component_iff cells a c hc ha]
  constructor
  · intro hconn
    exact (Conn_symm cells hab).trans hconn
  · intro hconn
    exact hab.trans hconn

/-- Membership in the per-frame event list: one event per nonempty labeled
component, carrying the truncated centroid and the difference-image sample
taken exactly there. -/
theorem mem_eventsAt (s : Stack) (thr : ℚ) (t : ℕ) (e : Event) :
    e ∈ eventsAt s thr t ↔
      ∃ comp, comp ∈ labelComponents (cellsAt s thr t) ∧ comp ≠ [] ∧
        e = { frame := t
              y := (comp.map Prod.fst).sum / comp.length
              x := (comp.map Prod.snd).sum / comp.length
              intensity := diffAt s t ((comp.map Prod.fst).sum / comp.length)
                             ((comp.map Prod.snd).sum / comp.length) } := by
  unfold eventsAt
  rw [List.mem_filterMap]
  constructor
  · rintro ⟨comp, hcomp, hsome⟩
    split at hsome
    · cases hsome
    · next hne =>
        refine ⟨comp, hcomp, ?_, (Option.some.inj hsome).symm⟩
        intro h
        rw [h] at hne
        exact hne rfl
  · rintro ⟨comp, hcomp, hne, rfl⟩
    refine ⟨comp, hcomp, ?_⟩
    rw [if_neg]
    intro h
    exact hne (List.isEmpty_iff.1 h)

/-- In the success case the result is the concatenation of the per-frame
event lists for `t = 1, …, T-1`. -/
theorem detect_ok_eq (s : Stack) (thr : ℚ) (md : ℤ) (evs : List Event)
    (h : detect_insertions_slow s thr md = .ok evs) :
    evs = (List.range' 1 (s.T - 1)).flatMap fun t => eventsAt s thr t := by
  unfold detect_insertions_slow at h
  split at h
  · cases h
  · exact (Except.ok.inj h).symm

/-- Every event of the per-frame list carries that frame index. -/
theorem eventsAt_frame (s : Stack) (thr : ℚ) (t : ℕ) (e : Event)
    (h : e ∈ eventsAt s thr t) : e.frame = t := by
  obtain ⟨comp, _, _, rfl⟩ := (mem_eventsAt s thr t e).1 h
  rfl

/-- Raising the threshold multiplier only removes candidate cells
(`bgVar ≥ 0` and the mask inequality is against `thr * sqrt bgVar`). -/
theorem cellsAt_subset_of_le (s : Stack) (a b : ℚ) (t : ℕ) (hab : a ≤ b) :
    cellsAt s b t ⊆ cellsAt s a t := by
  intro c hc
  rw [mem_cellsAt] at hc ⊢
  refine ⟨hc.1, hc.2.1, ?_⟩
  have hv := bgVar_nonneg s
  rw [maskCond_iff _ _ _ hv] at hc ⊢
  refine lt_of_le_of_lt ?_ hc.2.2
  have habR : (a : ℝ) ≤ (b : ℝ) := by exact_mod_cast hab
  exact mul_le_mul_of_nonneg_right habR (Real.sqrt_nonneg _)

/-- Bounds for truncated centroids: the floor of the mean of values `< n`
is `< n`, provided the list is nonempty. -/
theorem centroid_lt (l : List ℕ) (n : ℕ) (hne : l ≠ [])
    (hb : ∀ v ∈ l, v < n) : l.sum / l.length < n := by
  have hlen : 0 < l.length := List.length_pos.2 hne
  have hn : 0 < n := by
    rcases l with _ | ⟨v, l⟩
    · exact absurd rfl hne
    · exact Nat.lt_of_le_of_lt (Nat.zero_le v) (hb v (List.mem_cons_self v l))
  have hsum : l.sum ≤ l.length * (n - 1) := by
    have := List.sum_le_card_nsmul l (n - 1) fun v hv => by
      have := hb v hv
      omega
    simpa [smul_eq_mul] using this
  have hdiv : l.sum / l.length ≤ l.length * (n - 1) / l.length :=
    Nat.div_le_div_right hsum
  rw [Nat.mul_div_cancel_left _ hlen] at hdiv
  omega

/-- A frame pair with no candidate cells produces no events. -/
theorem eventsAt_eq_nil (s : Stack) (thr : ℚ) (t : ℕ)
    (h : cellsAt s thr t = []) : eventsAt s thr t = [] := by
  unfold eventsAt
  rw [h]
  rfl

/-- When every frame pair produces no events, the run returns the empty
event list. -/
theorem detect_ok_nil (s : Stack) (thr : ℚ) (md : ℤ) (hT : s.T ≠ 0)
    (h : ∀ t, 1 ≤ t → t < s.T → eventsAt s thr t = []) :
    detect_insertions_slow s thr md = .ok [] := by
  unfold detect_insertions_slow
  rw [if_neg hT]
  have hnil : ((List.range' 1 (s.T - 1)).flatMap fun t => eventsAt s thr t) = [] := by
    rw [List.eq_nil_iff_forall_not_mem]
    intro e he
    rw [List.mem_flatMap] at he
    obtain ⟨t, ht, het⟩ := he
    rw [List.mem_range'_1] at ht
    rw [h t ht.1 (by omega)] at het
    exact List.not_mem_nil e het
  rw [hnil]

/-- The 2×2 stack whose second frame lights up exactly the diagonal pair
`(0,0)` and `(1,1)`. -/
def stackDiag : Stack :=
  ⟨2, 2, 2, fun t y x => if t = 1 ∧ y = x then 5 else 0⟩

/-- C1 counterexample: the candidate mask at frame 1 consists of the two
diagonally neighbouring cells `(0,0)` and `(1,1)`, they are not adjacent
under the labeling actually performed by the code (`ndimage.label` with its
default 4-connectivity structuring element), and the run reports two events,
not the single event the claim demands. -/
theorem diag_neighbors_two_events :
    cellsAt stackDiag 5 1 = [(0, 0), (1, 1)] ∧
    adj4 (0, 0) (1, 1) = false ∧
    detect_insertions_slow stackDiag 5 3 =
      .ok [⟨1, 0, 0, 5⟩, ⟨1, 1, 1, 5⟩] := by
  refine ⟨by with_unfolding_all rfl, by decide, by with_unfolding_all rfl⟩

/-- C1 (amended): the Event Extractor partitions the mask's true cells into
maximal connected components under 4-connectivity — the default adjacency of
`scipy.ndimage.label`, under which diagonal neighbours are NOT connected:
diagonal pairs are never `adj4`-adjacent, every candidate cell lies in
exactly one labeled component (coverage plus pairwise disjointness), and two
cells share a component precisely when a 4-connected path of candidate cells
joins them (maximality and connectedness). -/
theorem labelComponents_partition_4conn (s : Stack) (thr : ℚ) (t : ℕ) :
    (∀ y x : ℕ, adj4 (y, x) (y + 1, x + 1) = false ∧
      adj4 (y + 1, x) (y, x + 1) = false) ∧
    (∀ c ∈ cellsAt s thr t,
      ∃ comp, comp ∈ labelComponents (cellsAt s thr t) ∧ c ∈ comp) ∧
    (∀ comp ∈ labelComponents (cellsAt s thr t), comp ≠ [] ∧
      ∀ b ∈ comp, ∀ c : ℕ × ℕ, c ∈ comp ↔ Conn (cellsAt s thr t) b c) ∧
    List.Pairwise List.Disjoint (labelComponents (cellsAt s thr t)) := by
  have hnd := cellsAt_nodup s thr t
  refine ⟨?_, labelComponents_cover _, ?_, labelComponents_disjoint _ hnd⟩
  · intro y x
    constructor
    · simp only [adj4, decide_eq_false_iff_not]
      omega
    · simp only [adj4, decide_eq_false_iff_not]
      omega
  · intro comp hcomp
    exact ⟨(labelComponents_nonempty_subset _ comp hcomp).1,
      labelComponents_conn _ hnd comp hcomp⟩

/-- A 1×4 stack: the reference frame `[0,2,0,2]` has variance 1, the second
frame `[10,7,10,2]` gives the difference image `[10,5,10,0]`. -/
def stackThr : Stack :=
  ⟨2, 1, 4, fun t _ x =>
    if t = 0 then (if x = 1 ∨ x = 3 then 2 else 0)
    else (if x = 0 ∨ x = 2 then 10 else if x = 1 then 7 else 2)⟩

/-- C2 counterexample: with multipliers 4 ≤ 6 on `stackThr`, threshold 4
keeps the bridge pixel and yields one event, while threshold 6 drops it and
splits the component, yielding two events — the event count increases. -/
theorem threshold_events_not_monotone :
    (4 : ℚ) ≤ 6 ∧
    detect_insertions_slow stackThr 4 3 = .ok [⟨1, 0, 1, 5⟩] ∧
    detect_insertions_slow stackThr 6 3 =
      .ok [⟨1, 0, 0, 10⟩, ⟨1, 0, 2, 10⟩] := by
  refine ⟨by norm_num, by with_unfolding_all rfl, by with_unfolding_all rfl⟩

/-- C2 (amended): what is monotone is the candidate set, not the event
count: for multipliers `a ≤ b` every candidate cell at `b` is a candidate
cell at `a`, so the number of candidate cells is non-increasing in the
multiplier (the event count can still grow when a component splits). -/
theorem candidate_mask_antitone (s : Stack) (a b : ℚ) (t : ℕ) (hab : a ≤ b) :
    cellsAt s b t ⊆ cellsAt s a t ∧
    (cellsAt s b t).length ≤ (cellsAt s a t).length := by
  have hsub := cellsAt_subset_of_le s a b t hab
  exact ⟨hsub, ((cellsAt_nodup s b t).subperm hsub).length_le⟩

/-- Witness for `candidate_mask_antitone` at the concrete C2 stack and
multipliers 4 ≤ 6. -/
theorem candidate_mask_antitone_witness :
    cellsAt stackThr 6 1 ⊆ cellsAt stackThr 4 1 ∧
    (cellsAt stackThr 6 1).length ≤ (cellsAt stackThr 4 1).length :=
  candidate_mask_antitone stackThr 4 6 1 (by norm_num)

/-- Scenario A: frames 0 and 1 all zeros, frame 2 has a single 100 at
`(2,2)`. -/
def stackA : Stack :=
  ⟨3, 5, 5, fun t y x => if t = 2 ∧ y = 2 ∧ x = 2 then 100 else 0⟩

set_option maxRecDepth 100000 in
/-- C3: on the Scenario A stack with multiplier 5.0 the run returns exactly
one event, `frame = 2, y = 2, x = 2, intensity = 100`. -/
theorem scenarioA_single_event :
    detect_insertions_slow stackA 5 3 = .ok [⟨2, 2, 2, 100⟩] := by
  with_unfolding_all rfl

/-- C9: the `min_distance` argument is accepted but never read, so any two
values of it produce identical results on every stack and threshold. -/
theorem min_distance_is_noop (s : Stack) (thr : ℚ) (md1 md2 : ℤ) :
    detect_insertions_slow s thr md1 = detect_insertions_slow s thr md2 := rfl

/-- A stack with two frames of zero pixels each (`H×W = 0`). -/
def stackZ : Stack := ⟨2, 0, 3, fun _ _ _ => 0⟩

/-- C4 counterexample: a structurally degenerate stack with `H×W = 0` is not
rejected — the run completes normally (the source merely computes `nan`
statistics from the empty frame and finds no candidates), returning an empty
event list rather than failing with `InvalidInput`. -/
theorem zero_area_stack_not_rejected :
    stackZ.Y * stackZ.X = 0 ∧
    detect_insertions_slow stackZ 5 3 = .ok [] := by
  exact ⟨by decide, by with_unfolding_all rfl⟩

/-- C4 (amended): the run fails — with the empty-stack index error, surfaced
as `InvalidInput` — exactly when `T = 0`; a stack of `T ≥ 1` zero-pixel
frames is not rejected and returns the empty event list. -/
theorem invalid_input_iff_no_frames (s : Stack) (thr : ℚ) (md : ℤ) :
    (detect_insertions_slow s thr md = .error .invalidInput ↔ s.T = 0) ∧
    (s.T ≠ 0 → s.Y * s.X = 0 → detect_insertions_slow s thr md = .ok []) := by
  constructor
  · unfold detect_insertions_slow
    split
    · next h => exact ⟨fun _ => h, fun _ => rfl⟩
    · next h =>
        constructor
        · intro hc
          cases hc
        · intro hc
          exact absurd hc h
  · intro hT hYX
    apply detect_ok_nil s thr md hT
    intro t _ _
    apply eventsAt_eq_nil
    rw [List.eq_nil_iff_forall_not_mem]
    intro c hc
    rw [mem_cellsAt] at hc
    rcases Nat.mul_eq_zero.1 hYX with h | h
    · exact absurd hc.1 (by omega)
    · exact absurd hc.2.1 (by omega)

/-- Witness for `invalid_input_iff_no_frames`: the zero-area stack passes the
`T ≠ 0` and `H×W = 0` hypotheses and indeed returns the empty list. -/
theorem invalid_input_iff_no_frames_witness :
    detect_insertions_slow stackZ 5 3 = .ok [] :=
  (invalid_input_iff_no_frames stackZ 5 3).2 (by decide) (by decide)

/-- A 1×2 frame, broadcast-compatible against a 2×2 frame. -/
def rowFrame : Arr2 := ⟨1, 2, fun _ _ => 0⟩

/-- A 2×2 frame of fives. -/
def sqFrame : Arr2 := ⟨2, 2, fun _ _ => 5⟩

/-- A 2×2 frame, not broadcast-compatible against `currMismatch`. -/
def prevMismatch : Arr2 := ⟨2, 2, fun _ _ => 0⟩

/-- A 3×2 frame, not broadcast-compatible against `prevMismatch`. -/
def currMismatch : Arr2 := ⟨3, 2, fun _ _ => 0⟩

/-- C5 counterexample: two frames whose dimensions differ (1×2 versus 2×2)
do not make the change-detection stage fail at all — numpy broadcasting
silently subtracts them — so no `ShapeMismatch` is raised. -/
theorem mismatched_dims_broadcast_ok :
    rowFrame.Y ≠ sqFrame.Y ∧
    isOkE (change_detector 5 1 rowFrame sqFrame) = true := by
  exact ⟨by decide, by with_unfolding_all rfl⟩

/-- C5 (amended): the change-detection stage fails (with the shape error)
only when the two frames' dimensions are not broadcast-compatible; and in
the actual pipeline — where consecutive frames are slices of one
`(T, Y, X)` array and always share dimensions — `detect_insertions_slow`
never returns `ShapeMismatch` (the source contains no such check). -/
theorem shape_error_only_nonbroadcastable (prev curr : Arr2) (thr sd : ℚ)
    (s : Stack) (thr2 : ℚ) (md : ℤ)
    (h : (bcastOK curr.Y prev.Y && bcastOK curr.X prev.X) = false) :
    change_detector thr sd prev curr = .error .shapeMismatch ∧
    detect_insertions_slow s thr2 md ≠ .error .shapeMismatch := by
  constructor
  · unfold change_detector sub_bcast
    rw [h]
    rfl
  · unfold detect_insertions_slow
    split
    · intro hc
      exact absurd (Except.error.inj hc) (by decide)
    · intro hc
      cases hc

/-- Witness for `shape_error_only_nonbroadcastable` at 2×2 versus 3×2
frames (not broadcastable) and the Scenario A stack. -/
theorem shape_error_only_nonbroadcastable_witness :
    change_detector 5 1 prevMismatch currMismatch = .error .shapeMismatch ∧
    detect_insertions_slow stackA 5 3 ≠ .error .shapeMismatch :=
  shape_error_only_nonbroadcastable prevMismatch currMismatch 5 1 stackA 5 3
    (by decide)

/-- The empty stack (`T = 0`). -/
def stackEmptyT : Stack := ⟨0, 5, 5, fun _ _ _ => 0⟩

/-- C6 counterexample: the empty stack vacuously satisfies "each frame
equals its predecessor", yet with the positive multiplier 1 the run fails at
`stack[0]` instead of returning an empty event list. -/
theorem empty_stack_errors_not_empty_list :
    detect_insertions_slow stackEmptyT 1 3 = .error .invalidInput ∧
    detect_insertions_slow stackEmptyT 1 3 ≠ .ok [] := by
  refine ⟨by with_unfolding_all rfl, by with_unfolding_all decide⟩

/-- C6 (amended): for every stack with at least one frame in which each
frame equals its predecessor, and every strictly positive threshold
multiplier, the run returns the empty event list. -/
theorem static_stack_no_events (s : Stack) (thr : ℚ) (md : ℤ)
    (hT : s.T ≠ 0)
    (hstatic : ∀ t, 1 ≤ t → t < s.T →
      ∀ y < s.Y, ∀ x < s.X, s.data t y x = s.data (t - 1) y x)
    (hthr : 0 < thr) :
    detect_insertions_slow s thr md = .ok [] := by
  apply detect_ok_nil s thr md hT
  intro t h1 h2
  apply eventsAt_eq_nil
  rw [List.eq_nil_iff_forall_not_mem]
  intro c hc
  rw [mem_cellsAt] at hc
  have hdiff : diffAt s t c.1 c.2 = 0 := by
    unfold diffAt
    rw [hstatic t h1 h2 c.1 hc.1 c.2 hc.2.1]
    ring
  have hfalse : maskCond thr (bgVar s) (diffAt s t c.1 c.2) = false := by
    rw [hdiff]
    unfold maskCond
    rw [if_pos (le_of_lt hthr)]
    simp
  rw [hfalse] at hc
  exact Bool.false_ne_true hc.2.2

/-- A 2-frame 1×1 constant stack. -/
def stackConst : Stack := ⟨2, 1, 1, fun _ _ _ => 3⟩

/-- Witness for `static_stack_no_events` at the constant stack and
multiplier 1. -/
theorem static_stack_no_events_witness :
    detect_insertions_slow stackConst 1 3 = .ok [] :=
  static_stack_no_events stackConst 1 3 (by decide)
    (fun _ _ _ _ _ _ _ => rfl) (by norm_num)

/-- Events flat-mapped over a non-decreasing frame list have non-decreasing
frames. -/
theorem flatMap_frames_pairwise (s : Stack) (thr : ℚ) (ts : List ℕ)
    (hts : List.Pairwise (· ≤ ·) ts) :
    List.Pairwise (fun e1 e2 : Event => e1.frame ≤ e2.frame)
      (ts.flatMap fun t => eventsAt s thr t) := by
  induction ts with
  | nil => exact List.Pairwise.nil
  | cons t ts ih =>
      rw [List.flatMap_cons, List.pairwise_append]
      obtain ⟨h1, h2⟩ := List.pairwise_cons.1 hts
      refine ⟨?_, ih h2, ?_⟩
      · apply List.pairwise_of_forall_mem_list
        intro e1 he1 e2 he2
        rw [eventsAt_frame s thr t e1 he1, eventsAt_frame s thr t e2 he2]
      · intro e1 he1 e2 he2
        rw [List.mem_flatMap] at he2
        obtain ⟨t2, ht2, he2m⟩ := he2
        rw [eventsAt_frame s thr t e1 he1, eventsAt_frame s thr t2 e2 he2m]
        exact h1 t2 ht2

/-- C7: in every successful run the event frames are non-decreasing in
output order, and no event carries frame 0 (detection starts at `t = 1`). -/
theorem event_frames_monotone_nonzero (s : Stack) (thr : ℚ) (md : ℤ)
    (evs : List Event) (h : detect_insertions_slow s thr md = .ok evs) :
    List.Pairwise (fun e1 e2 : Event => e1.frame ≤ e2.frame) evs ∧
    ∀ e ∈ evs, e.frame ≠ 0 := by
  rw [detect_ok_eq s thr md evs h]
  constructor
  · exact flatMap_frames_pairwise s thr _
      ((List.pairwise_lt_range' 1 (s.T - 1)).imp fun hlt => le_of_lt hlt)
  · intro e he
    rw [List.mem_flatMap] at he
    obtain ⟨t, ht, het⟩ := he
    rw [List.mem_range'_1] at ht
    rw [eventsAt_frame s thr t e het]
    omega

/-- A 3-frame 1×3 stack producing one event at frame 1 and one at frame 2. -/
def stackTwo : Stack :=
  ⟨3, 1, 3, fun t _ x =>
    if t = 1 ∧ x = 0 then 10 else if t = 2 ∧ x = 2 then 20 else 0⟩

/-- Witness for `event_frames_monotone_nonzero` on a concrete two-event
run. -/
theorem event_frames_monotone_nonzero_witness :
    List.Pairwise (fun e1 e2 : Event => e1.frame ≤ e2.frame)
      [⟨1, 0, 0, 10⟩, ⟨2, 0, 2, 20⟩] ∧
    ∀ e ∈ [(⟨1, 0, 0, 10⟩ : Event), ⟨2, 0, 2, 20⟩], e.frame ≠ 0 :=
  event_frames_monotone_nonzero stackTwo 5 3 [⟨1, 0, 0, 10⟩, ⟨2, 0, 2, 20⟩]
    (by with_unfolding_all rfl)

/-- C8: every emitted event arises from a nonempty labeled component as the
truncated arithmetic means of its row and column indices (natural-number
division of the exact sums, i.e. truncation toward zero of the non-negative
means), with its intensity sampled from the difference image at exactly that
truncated coordinate. -/
theorem event_is_truncated_centroid_sample (s : Stack) (thr : ℚ) (md : ℤ)
    (evs : List Event) (h : detect_insertions_slow s thr md = .ok evs) :
    ∀ e ∈ evs, ∃ t comp,
      comp ∈ labelComponents (cellsAt s thr t) ∧ comp ≠ [] ∧
      e.frame = t ∧
      e.y = (comp.map Prod.fst).sum / comp.length ∧
      e.x = (comp.map Prod.snd).sum / comp.length ∧
      e.intensity = diffAt s t e.y e.x := by
  intro e he
  rw [detect_ok_eq s thr md evs h, List.mem_flatMap] at he
  obtain ⟨t, ht, het⟩ := he
  obtain ⟨comp, hcomp, hne, rfl⟩ := (mem_eventsAt s thr t e).1 het
  exact ⟨t, comp, hcomp, hne, rfl, rfl, rfl, rfl⟩

/-- A 2-frame 1×2 stack whose second frame lights both pixels: one two-cell
component, truncated centroid `(0, 0)`. -/
def stackH : Stack := ⟨2, 1, 2, fun t _ _ => if t = 1 then 10 else 0⟩

/-- Witness for `event_is_truncated_centroid_sample` at the two-cell
component of `stackH`. -/
theorem event_is_truncated_centroid_sample_witness :
    ∃ t comp,
      comp ∈ labelComponents (cellsAt stackH 5 t) ∧ comp ≠ [] ∧
      (⟨1, 0, 0, 10⟩ : Event).frame = t ∧
      (⟨1, 0, 0, 10⟩ : Event).y = (comp.map Prod.fst).sum / comp.length ∧
      (⟨1, 0, 0, 10⟩ : Event).x = (comp.map Prod.snd).sum / comp.length ∧
      (⟨1, 0, 0, 10⟩ : Event).intensity =
        diffAt stackH t (⟨1, 0, 0, 10⟩ : Event).y (⟨1, 0, 0, 10⟩ : Event).x :=
  event_is_truncated_centroid_sample stackH 5 3 [⟨1, 0, 0, 10⟩]
    (by with_unfolding_all rfl) ⟨1, 0, 0, 10⟩ (List.mem_singleton_self _)

/-- C10: every emitted event's coordinates are strictly inside the frame
(`y < Y`, `x < X`; both are naturals so `0 ≤ y, x` holds by type), hence the
difference-image sample at the truncated centroid never indexes outside the
frame, and every labeled component is nonempty, so the empty-component skip
branch of the per-label loop is unreachable. -/
theorem events_within_bounds (s : Stack) (thr : ℚ) (md : ℤ)
    (evs : List Event) (h : detect_insertions_slow s thr md = .ok evs) :
    (∀ e ∈ evs, e.y < s.Y ∧ e.x < s.X) ∧
    (∀ t : ℕ, ∀ comp ∈ labelComponents (cellsAt s thr t), comp ≠ []) := by
  constructor
  · intro e he
    rw [detect_ok_eq s thr md evs h, List.mem_flatMap] at he
    obtain ⟨t, ht, het⟩ := he
    obtain ⟨comp, hcomp, hne, rfl⟩ := (mem_eventsAt s thr t e).1 het
    obtain ⟨_, hsub⟩ := labelComponents_nonempty_subset _ comp hcomp
    constructor
    · have hbound := centroid_lt (comp.map Prod.fst) s.Y
        (fun hmap => hne (List.map_eq_nil_iff.1 hmap))
        (by
          intro v hv
          rw [List.mem_map] at hv
          obtain ⟨c, hc, rfl⟩ := hv
          exact ((mem_cellsAt s thr t c).1 (hsub hc)).1)
      rwa [List.length_map] at hbound
    · have hbound := centroid_lt (comp.map Prod.snd) s.X
        (fun hmap => hne (List.map_eq_nil_iff.1 hmap))
        (by
          intro v hv
          rw [List.mem_map] at hv
          obtain ⟨c, hc, rfl⟩ := hv
          exact ((mem_cellsAt s thr t c).1 (hsub hc)).2.1)
      rwa [List.length_map] at hbound
  · intro t comp hcomp
    exact (labelComponents_nonempty_subset _ comp hcomp).1

set_option maxRecDepth 100000 in
/-- Witness for `events_within_bounds` on the Scenario A run. -/
theorem events_within_bounds_witness :
    (∀ e ∈ [(⟨2, 2, 2, 100⟩ : Event)], e.y < stackA.Y ∧ e.x < stackA.X) ∧
    (∀ t : ℕ, ∀ comp ∈ labelComponents (cellsAt stackA 5 t), comp ≠ []) :=
  events_within_bounds stackA 5 3 [⟨2, 2, 2, 100⟩] (by with_unfolding_all rfl)
